import Mathlib

/-!
Shallow embedding of the geqo circuit-construction library
(`src/geqo/algorithms/algorithms.py`) and verification of its
specification.

Operations are modelled as a closed inductive type `Op`; a `Sequence` is
the record of declared classical bits, declared qubits and the ordered
list of (operation, qubit-targets) pairs, exactly as `algorithms.py`
constructs them (`Sequence([], allQubits, gatesAndTargets)`; the
classical-bit target component is always absent there).

Python list primitives are mirrored by their Lean counterparts:
`controls[:-1]` is `List.dropLast`, `controls[-1]` is `List.getLast`
(an `IndexError` on the empty list becomes `Option.none` of the whole
call), `targetOrder.index(x)` is `List.indexOf x targetOrder`, and
`[1] * (len(controls) - 1)` is `List.replicate (controls.length - 1) 1`
(both are empty when `controls.length ≤ 1`).
-/

/-- The closed set of operation kinds appearing in the algorithms module:
elementary gates (`fundamental_gates`, `rotation_gates`,
`multi_qubit_gates`), the generic `QuantumControl` wrapper, and the
composite operations defined in `algorithms.py` itself. The `Toffoli`
class carries a name-space string (`Toffoli(namePrefix)` in
`controlledXGate`); `Phase`, `Rx`, `Ry` and their inverses carry their
symbolic parameter name. -/
inductive Op where
  | Hadamard : Op
  | PauliX : Op
  | Phase (name : String) : Op
  | InversePhase (name : String) : Op
  | SwapQubits : Op
  | Rx (name : String) : Op
  | Ry (name : String) : Op
  | InverseRx (name : String) : Op
  | InverseRy (name : String) : Op
  | Toffoli (nsp : String) : Op
  | QuantumControl (onoff : List Nat) (qop : Op) : Op
  | PermuteQubits (targetOrder : List Nat) : Op
  | QubitReversal (numberQubits : Nat) : Op
  | QFT (numberQubits : Nat) (nsp : String) : Op
  | InverseQFT (numberQubits : Nat) (nsp : String) : Op
  | PCCM (name : String) (nsp : String) : Op
  | InversePCCM (name : String) (nsp : String) : Op
deriving DecidableEq, Repr

/-- `Sequence(bits, qubits, gatesAndTargets)` as constructed throughout
`algorithms.py`: declared classical-bit register, declared qubit
register, and the ordered gate/target pairs. Equality is structural. -/
structure Sequence where
  bits : List Nat
  qubits : List Nat
  gatesAndTargets : List (Op × List Nat)
deriving DecidableEq, Repr

/-- `PermuteQubits.getInverse`: `newOrder.append(targetOrder.index(x))`
for `x in range(len(targetOrder))`. -/
def PermuteQubits.getInverse (targetOrder : List Nat) : List Nat :=
  (List.range targetOrder.length).map (fun x => List.indexOf x targetOrder)

/-- `Op.getInverse`, dispatching as the per-class Python `getInverse`
methods do. The arms for `PermuteQubits`, `QubitReversal`, `QFT`,
`InverseQFT`, `PCCM` and `InversePCCM` are translated from
`algorithms.py`. The elementary-gate arms are modelled from the spec:
Hadamard, Pauli-X, swap and Toffoli are involutions; `Phase`/`Rx`/`Ry`
invert to `InversePhase`/`InverseRx`/`InverseRy` and back (as the
repository's tests for `InverseQFT` and `InversePCCM` exhibit); a
`QuantumControl`'s inverse wraps the inverse of the inner operation
with the same `onoff` pattern. -/
def Op.getInverse : Op → Op
  | .Hadamard => .Hadamard
  | .PauliX => .PauliX
  | .Phase name => .InversePhase name
  | .InversePhase name => .Phase name
  | .SwapQubits => .SwapQubits
  | .Rx name => .InverseRx name
  | .Ry name => .InverseRy name
  | .InverseRx name => .Rx name
  | .InverseRy name => .Ry name
  | .Toffoli nsp => .Toffoli nsp
  | .QuantumControl onoff qop => .QuantumControl onoff qop.getInverse
  | .PermuteQubits targetOrder => .PermuteQubits (PermuteQubits.getInverse targetOrder)
  | .QubitReversal n => .QubitReversal n
  | .QFT n nsp => .InverseQFT n nsp
  | .InverseQFT n nsp => .QFT n nsp
  | .PCCM name nsp => .InversePCCM name nsp
  | .InversePCCM name nsp => .PCCM name nsp

/-- Modelled from the spec: `Sequence.getInverse` lives in
`geqo/core/quantum_circuit.py`, which is not part of the sources here.
The spec states it "reverses triple order and inverts each operation,
each target list unchanged". -/
def Sequence.getInverse (s : Sequence) : Sequence :=
  ⟨s.bits, s.qubits, (s.gatesAndTargets.map (fun g => (g.1.getInverse, g.2))).reverse⟩

/-- `PermuteQubits.getNumberQubits`: the length of the permutation. -/
def PermuteQubits.getNumberQubits (targetOrder : List Nat) : Nat :=
  targetOrder.length

/-- `PermuteQubits.getEquivalentSequence`:
`Sequence([], allQubits, [(self, allQubits)])`. -/
def PermuteQubits.getEquivalentSequence (targetOrder : List Nat) : Sequence :=
  let numberQubits := PermuteQubits.getNumberQubits targetOrder
  let allQubits := List.range numberQubits
  ⟨[], allQubits, [(Op.PermuteQubits targetOrder, allQubits)]⟩

/-- `QubitReversal.getEquivalentSequence`: `(SwapQubits(), [i, n-i-1])`
for `i in range(n // 2)`, then `Sequence([], allQubits, seq)`. -/
def QubitReversal.getEquivalentSequence (numberQubits : Nat) : Sequence :=
  let allQubits := List.range numberQubits
  let seq := (List.range (numberQubits / 2)).map
    (fun i => (Op.SwapQubits, [i, numberQubits - i - 1]))
  ⟨[], allQubits, seq⟩

/-- `QFT.getEquivalentSequence`: for `i in range(n)` a Hadamard on `i`
then, for `j in range(1, n - i)`, a `QuantumControl([1],
Phase(prefix + "Ph" + str(j)))` on `[i + j, i]`; finally
`(QubitReversal(n), range(n))`. The inner Python loop over
`j = 1, ..., n-i-1` is rendered as a map over `List.range (n - i - 1)`
with `j = k + 1`. -/
def QFT.getEquivalentSequence (numberQubits : Nat) (nsp : String) : Sequence :=
  let n := numberQubits
  let seq := (List.range n).flatMap (fun i =>
    (Op.Hadamard, [i]) ::
      (List.range (n - i - 1)).map (fun k =>
        (Op.QuantumControl [1] (Op.Phase (nsp ++ "Ph" ++ toString (k + 1))),
         [i + (k + 1), i])))
  ⟨[], List.range n, seq ++ [(Op.QubitReversal n, List.range n)]⟩

/-- `InverseQFT.getEquivalentSequence`:
`self.qft.getEquivalentSequence().getInverse()`. -/
def InverseQFT.getEquivalentSequence (numberQubits : Nat) (nsp : String) : Sequence :=
  (QFT.getEquivalentSequence numberQubits nsp).getInverse

/-- `PCCM.getEquivalentSequence`: the fixed two-qubit, six-gate circuit. -/
def PCCM.getEquivalentSequence (name : String) (nsp : String) : Sequence :=
  let gate1 := Op.Rx (nsp ++ "RX(π/2)")
  let gate2 := Op.Rx (nsp ++ "RX(π/2)")
  let gate3 := Op.QuantumControl [1] (Op.Rx (nsp ++ "RX(" ++ name ++ ")"))
  let gate4 := Op.QuantumControl [1] (Op.Rx (nsp ++ "RX(-π/2)"))
  let gate5 := Op.Rx (nsp ++ "RX(-π/2)")
  let gate6 := Op.Ry (nsp ++ "RY(-π/2)")
  ⟨[], [0, 1],
   [(gate1, [0]), (gate2, [1]), (gate3, [0, 1]), (gate4, [1, 0]),
    (gate5, [0]), (gate6, [1])]⟩

/-- `InversePCCM.getEquivalentSequence`:
`self.pccm.getEquivalentSequence().getInverse()`. -/
def InversePCCM.getEquivalentSequence (name : String) (nsp : String) : Sequence :=
  (PCCM.getEquivalentSequence name nsp).getInverse

/-- `controlledXGateInternal(controls, ancilla, target, toffoli)`.
The Python body appends a first block (recursive splice for more than
three controls, otherwise one `QuantumControl` onto the ancilla), then
`(toffoli, [controls[-1]] + ancilla + target)`, then the same block and
Toffoli again, and wraps the result as
`Sequence([], controls + target + ancilla, seq)`. On an empty control
list Python raises an `IndexError` at `controls[-1]`; that failure is
the `none` branch here. -/
def controlledXGateInternal (controls ancilla target : List Nat) (toffoli : Op) :
    Option Sequence :=
  if h : controls = [] then none
  else
    let last := controls.getLast h
    let firstPart : Option (List (Op × List Nat)) :=
      if controls.length > 3 then
        (controlledXGateInternal controls.dropLast [last] ancilla toffoli).map
          (fun buffer => buffer.gatesAndTargets)
      else
        some [(Op.QuantumControl (List.replicate (controls.length - 1) 1) Op.PauliX,
               controls.dropLast ++ ancilla)]
    firstPart.bind (fun fp =>
      let half := fp ++ [(toffoli, [last] ++ ancilla ++ target)]
      some ⟨[], controls ++ target ++ ancilla, half ++ half⟩)
termination_by controls.length
decreasing_by
  simp only [List.length_dropLast]
  exact Nat.sub_lt (List.length_pos.mpr h) Nat.one_pos

/-- `controlledXGate(numberControls, namePrefix)`: controls
`0, ..., numberControls-1`, target `numberControls`, ancilla
`numberControls + 1`; returns the Toffoli object together with the
internal decomposition. -/
def controlledXGate (numberControls : Nat) (nsp : String) :
    Op × Option Sequence :=
  let controls := List.range numberControls
  let ancilla := [numberControls + 1]
  let target := [numberControls]
  let toffoli := Op.Toffoli nsp
  (toffoli, controlledXGateInternal controls ancilla target toffoli)

/-- `QubitReversal.getNumberQubits`. -/
def QubitReversal.getNumberQubits (numberQubits : Nat) : Nat := numberQubits

/-- `QFT.getNumberQubits`. -/
def QFT.getNumberQubits (numberQubits : Nat) : Nat := numberQubits

/-- `InverseQFT.getNumberQubits`: `self.qft.numberQubits`. -/
def InverseQFT.getNumberQubits (numberQubits : Nat) : Nat := numberQubits

/-- `PCCM.getNumberQubits`. -/
def PCCM.getNumberQubits : Nat := 2

/-- `InversePCCM.getNumberQubits`. -/
def InversePCCM.getNumberQubits : Nat := 2

/-- C5: `QFT(n, s).getInverse() == InverseQFT(n, s)` and
`InverseQFT(n, s).getInverse() == QFT(n, s)`, hence the double inverse
of `QFT(n, s)` is itself; likewise `PCCM(name, s).getInverse() ==
InversePCCM(name, s)` and the double inverse of `PCCM(name, s)` is
itself. -/
theorem C5_qft_pccm_inverse_pairs (n : Nat) (s name : String) :
    (Op.QFT n s).getInverse = Op.InverseQFT n s ∧
    (Op.InverseQFT n s).getInverse = Op.QFT n s ∧
    (Op.QFT n s).getInverse.getInverse = Op.QFT n s ∧
    (Op.PCCM name s).getInverse = Op.InversePCCM name s ∧
    (Op.InversePCCM name s).getInverse = Op.PCCM name s ∧
    (Op.PCCM name s).getInverse.getInverse = Op.PCCM name s :=
  ⟨rfl, rfl, rfl, rfl, rfl, rfl⟩

/-- C7: for every `n`, `QubitReversal(n).getEquivalentSequence()` holds
exactly `⌊n/2⌋` swap pairs, the `i`-th being a `SwapQubits` on
`[i, n-1-i]`, and nothing else; and `QubitReversal(n).getInverse()` is
`QubitReversal(n)` itself. -/
theorem C7_qubitReversal_swaps (n : Nat) :
    (QubitReversal.getEquivalentSequence n).gatesAndTargets.length = n / 2 ∧
    (∀ i, i < n / 2 →
      (QubitReversal.getEquivalentSequence n).gatesAndTargets[i]? =
        some (Op.SwapQubits, [i, n - 1 - i])) ∧
    (Op.QubitReversal n).getInverse = Op.QubitReversal n := by
  refine ⟨by simp [QubitReversal.getEquivalentSequence], fun i hi => ?_, rfl⟩
  simp only [QubitReversal.getEquivalentSequence, List.getElem?_map,
    List.getElem?_range, hi, if_pos]
  have : n - 1 - i = n - i - 1 := by omega
  rw [this]
  rfl

/-- Witness for C7 at `n = 5`, `i = 1`. -/
theorem C7_qubitReversal_swaps_witness :
    (QubitReversal.getEquivalentSequence 5).gatesAndTargets[1]? =
      some (Op.SwapQubits, [1, 3]) :=
  (C7_qubitReversal_swaps 5).2.1 1 (by decide)

/-- C8: `PCCM(name, s).getEquivalentSequence()` is the two-qubit
sequence of exactly six gates: `Rx(π/2)` on qubit 0, `Rx(π/2)` on qubit
1, a singly-controlled `Rx` with the named angle (control 0, target 1),
a singly-controlled `Rx(-π/2)` (control 1, target 0), `Rx(-π/2)` on
qubit 0 and `Ry(-π/2)` on qubit 1, every symbolic name carrying the
name-space string in front. -/
theorem C8_pccm_sequence (name s : String) :
    PCCM.getEquivalentSequence name s =
      ⟨[], [0, 1],
       [(Op.Rx (s ++ "RX(π/2)"), [0]),
        (Op.Rx (s ++ "RX(π/2)"), [1]),
        (Op.QuantumControl [1] (Op.Rx (s ++ "RX(" ++ name ++ ")")), [0, 1]),
        (Op.QuantumControl [1] (Op.Rx (s ++ "RX(-π/2)")), [1, 0]),
        (Op.Rx (s ++ "RX(-π/2)"), [0]),
        (Op.Ry (s ++ "RY(-π/2)"), [1])]⟩ ∧
    (PCCM.getEquivalentSequence name s).gatesAndTargets.length = 6 :=
  ⟨rfl, rfl⟩

/-- C6: for a permutation `p` of `0..n-1`, the inverse computed by
`PermuteQubits.getInverse` places at slot `x` exactly the unique index
`i` with `p[i] == x`, and applying `getInverse` twice gives back `p`. -/
theorem C6_permuteQubits_inverse (p : List Nat)
    (hp : p.Perm (List.range p.length)) :
    (∀ x i, x < p.length → i < p.length →
      ((PermuteQubits.getInverse p)[x]? = some i ↔ p[i]? = some x)) ∧
    PermuteQubits.getInverse (PermuteQubits.getInverse p) = p := by
  have hnd : p.Nodup := hp.symm.nodup (List.nodup_range _)
  have hmem : ∀ x, x ∈ p ↔ x < p.length := by
    intro x
    rw [hp.mem_iff, List.mem_range]
  have hlen2 : ∀ l : List Nat, (PermuteQubits.getInverse l).length = l.length := by
    intro l
    simp [PermuteQubits.getInverse]
  have hq : ∀ (l : List Nat) (x : Nat), x < l.length →
      (PermuteQubits.getInverse l)[x]? = some (List.indexOf x l) := by
    intro l x hx
    simp only [PermuteQubits.getInverse, List.getElem?_map, List.getElem?_range,
      hx, if_pos]
    rfl
  have hgi : ∀ (i : Nat) (hi : i < p.length),
      List.indexOf (p.get ⟨i, hi⟩) p = i :=
    fun i hi => List.get_indexOf hnd ⟨i, hi⟩
  constructor
  · intro x i hx hi
    rw [hq p x hx, List.getElem?_eq_getElem hi]
    constructor
    · intro h
      have h1 : List.indexOf x p = i := Option.some.inj h
      subst h1
      have h2 : p.get ⟨List.indexOf x p,
          List.indexOf_lt_length.mpr ((hmem x).mpr hx)⟩ = x := List.indexOf_get _
      rw [List.get_eq_getElem] at h2
      exact congrArg some h2
    · intro h
      have h2 : p.get ⟨i, hi⟩ = x := by
        rw [List.get_eq_getElem]
        exact Option.some.inj h
      have h3 := hgi i hi
      rw [h2] at h3
      exact congrArg some h3
  · -- nodup of the inverse list, then extensionality on indexed entries
    have hqnd : (PermuteQubits.getInverse p).Nodup := by
      refine List.Nodup.map_on ?_ (List.nodup_range _)
      intro a ha b hb hab
      rw [List.mem_range] at ha hb
      exact (List.indexOf_inj ((hmem a).mpr ha) ((hmem b).mpr hb)).mp hab
    apply List.ext_getElem?
    intro y
    by_cases hy : y < p.length
    · rw [hq (PermuteQubits.getInverse p) y (by
        rw [hlen2]
        exact hy), List.getElem?_eq_getElem hy]
      have hpmem : p.get ⟨y, hy⟩ ∈ p := List.get_mem p y hy
      have hpylt : p.get ⟨y, hy⟩ < p.length := (hmem _).mp hpmem
      have e1 : (PermuteQubits.getInverse p)[p.get ⟨y, hy⟩]? =
          some (List.indexOf (p.get ⟨y, hy⟩) p) := hq p _ hpylt
      rw [hgi y hy] at e1
      have hblt : p.get ⟨y, hy⟩ < (PermuteQubits.getInverse p).length := by
        rw [hlen2]
        exact hpylt
      rw [List.getElem?_eq_getElem hblt] at e1
      have e2 : (PermuteQubits.getInverse p).get ⟨p.get ⟨y, hy⟩, hblt⟩ = y := by
        rw [List.get_eq_getElem]
        exact Option.some.inj e1
      have e3 : List.indexOf y (PermuteQubits.getInverse p) = p.get ⟨y, hy⟩ := by
        have h4 : List.indexOf
            ((PermuteQubits.getInverse p).get ⟨p.get ⟨y, hy⟩, hblt⟩)
            (PermuteQubits.getInverse p) = p.get ⟨y, hy⟩ :=
          List.get_indexOf hqnd ⟨p.get ⟨y, hy⟩, hblt⟩
        rwa [e2] at h4
      rw [e3]
      exact congrArg some (List.get_eq_getElem p ⟨y, hy⟩)
    · have hL : (PermuteQubits.getInverse (PermuteQubits.getInverse p)).length ≤ y := by
        rw [hlen2, hlen2]
        omega
      have hR : p.length ≤ y := by omega
      rw [List.getElem?_eq_none hL, List.getElem?_eq_none hR]

/-- Witness for C6 at the permutation `[2, 0, 1]`. -/
theorem C6_permuteQubits_inverse_witness :
    ((PermuteQubits.getInverse [2, 0, 1])[0]? = some 1 ↔
      [2, 0, 1][1]? = some 0) ∧
    PermuteQubits.getInverse (PermuteQubits.getInverse [2, 0, 1]) = [2, 0, 1] :=
  ⟨(C6_permuteQubits_inverse [2, 0, 1] (by decide)).1 0 1 (by decide) (by decide),
   (C6_permuteQubits_inverse [2, 0, 1] (by decide)).2⟩

/-- Modelled from the spec: flip the value of one qubit of a classical
basis state (the action of `PauliX` on a basis state). -/
def flipAt (st : Nat → Bool) (q : Nat) : Nat → Bool :=
  fun i => if i = q then !(st i) else st i

/-- Modelled from the spec: action of the classical (permutation) gates
on a computational-basis state, for the gates appearing in
`controlledXGate` decompositions. `PauliX` flips its target; `Toffoli`
flips its third target iff the first two are 1; `QuantumControl` applies
the inner operation to the trailing targets iff the leading control
qubits match the `onoff` pattern exactly. Non-classical gates (and
malformed target lists) yield `none`. -/
def applyOp : Op → List Nat → (Nat → Bool) → Option (Nat → Bool)
  | Op.PauliX, [t], st => some (flipAt st t)
  | Op.Toffoli _, [a, b, c], st =>
      some (if st a && st b then flipAt st c else st)
  | Op.QuantumControl onoff qop, ts, st =>
      if onoff.length ≤ ts.length then
        if ((ts.take onoff.length).zip onoff).all
            (fun c => st c.1 == (c.2 == 1)) then
          applyOp qop (ts.drop onoff.length) st
        else some st
      else none
  | _, _, _ => none

/-- Run a gate list over a classical basis state, threading failures. -/
def runSeq : List (Op × List Nat) → (Nat → Bool) → Option (Nat → Bool)
  | [], st => some st
  | g :: rest, st => (applyOp g.1 g.2 st).bind (fun st' => runSeq rest st')

/-- The basis state of `controlledXGate(4)`'s register: controls
`c0..c3` on qubits 0-3, target `t` on qubit 4, ancilla 0 on qubit 5. -/
def basisState4 (c0 c1 c2 c3 t : Bool) : Nat → Bool :=
  fun q => match q with
  | 0 => c0
  | 1 => c1
  | 2 => c2
  | 3 => c3
  | 4 => t
  | _ => false

/-- The basis state of `controlledXGate(1)`'s register: control `c` on
qubit 0, target `t` on qubit 1, ancilla 0 on qubit 2. -/
def basisState1 (c t : Bool) : Nat → Bool :=
  fun q => match q with
  | 0 => c
  | 1 => t
  | _ => false

/-- The concrete decomposition produced by `controlledXGate(4)`. -/
theorem controlledXGate_four_unfold :
    (controlledXGate 4 "").2 = some
      ⟨[], [0, 1, 2, 3, 4, 5],
       [(Op.QuantumControl [1, 1] Op.PauliX, [0, 1, 3]), (Op.Toffoli "", [2, 3, 5]),
        (Op.QuantumControl [1, 1] Op.PauliX, [0, 1, 3]), (Op.Toffoli "", [2, 3, 5]),
        (Op.Toffoli "", [3, 5, 4]),
        (Op.QuantumControl [1, 1] Op.PauliX, [0, 1, 3]), (Op.Toffoli "", [2, 3, 5]),
        (Op.QuantumControl [1, 1] Op.PauliX, [0, 1, 3]), (Op.Toffoli "", [2, 3, 5]),
        (Op.Toffoli "", [3, 5, 4])]⟩ := by
  simp [controlledXGate, controlledXGateInternal, List.range_succ]

/-- C1: on every classical basis state with the ancilla (qubit 5)
initialized to 0, the sequence returned by `controlledXGate(4)` flips
the target (qubit 4) iff all four control bits are 1, leaves every
control bit unchanged and returns the ancilla to 0. -/
theorem C1_controlledXGate_four_truth_table :
    ∀ c0 c1 c2 c3 t : Bool,
      ((controlledXGate 4 "").2.bind
        (fun sq => runSeq sq.gatesAndTargets (basisState4 c0 c1 c2 c3 t))).map
          (fun f => (f 0, f 1, f 2, f 3, f 4, f 5)) =
      some (c0, c1, c2, c3, xor (c0 && c1 && c2 && c3) t, false) := by
  intro c0 c1 c2 c3 t
  rw [controlledXGate_four_unfold]
  cases c0 <;> cases c1 <;> cases c2 <;> cases c3 <;> cases t <;> rfl

/-- The concrete decomposition produced by `controlledXGate(1)`. -/
theorem controlledXGate_one_unfold :
    (controlledXGate 1 "").2 = some
      ⟨[], [0, 1, 2],
       [(Op.QuantumControl [] Op.PauliX, [2]), (Op.Toffoli "", [0, 2, 1]),
        (Op.QuantumControl [] Op.PauliX, [2]), (Op.Toffoli "", [0, 2, 1])]⟩ := by
  simp [controlledXGate, controlledXGateInternal, List.range_succ]

/-- Counterexample to C3: with `numberControls = 0` the internal
decomposition fails (`controls[-1]` on the empty control list is an
`IndexError` in the source), so the claim that 0 controls raise no
out-of-range error is false. -/
theorem C3_counterexample_zero_controls :
    (controlledXGate 0 "").2 = none := by
  simp [controlledXGate, controlledXGateInternal]

/-- C3 (amended): `controlledXGate(1)` raises no error and its sequence
acts on basis states (ancilla initialized to 0) as a single
controlled-X: target flipped iff the control is 1, control unchanged,
ancilla restored to 0. `controlledXGate(0)`, however, fails with an
out-of-range error (`controls[-1]` on an empty list). -/
theorem C3_degenerate_controls :
    (controlledXGate 0 "").2 = none ∧
    (∀ c t : Bool,
      ((controlledXGate 1 "").2.bind
        (fun sq => runSeq sq.gatesAndTargets (basisState1 c t))).map
          (fun f => (f 0, f 1, f 2)) = some (c, xor c t, false)) := by
  constructor
  · simp [controlledXGate, controlledXGateInternal]
  · intro c t
    rw [controlledXGate_one_unfold]
    cases c <;> cases t <;> rfl

/-- For a nonempty control list the internal decomposition always
succeeds; its declared qubits are `controls + target + ancilla`; it has
4 gate pairs when there are at most 3 controls, and twice the recursive
count plus 2 otherwise. -/
theorem controlledXGateInternal_shape :
    ∀ (n : Nat) (controls ancilla target : List Nat) (toffoli : Op)
      (h : controls ≠ []), controls.length = n →
    ∃ s, controlledXGateInternal controls ancilla target toffoli = some s ∧
      s.qubits = controls ++ target ++ ancilla ∧
      (controls.length ≤ 3 → s.gatesAndTargets.length = 4) ∧
      (3 < controls.length →
        ∃ sub, controlledXGateInternal controls.dropLast [controls.getLast h]
            ancilla toffoli = some sub ∧
          s.gatesAndTargets.length = 2 * sub.gatesAndTargets.length + 2) := by
  intro n
  induction n using Nat.strong_induction_on with
  | _ n ih =>
    intro controls anc tgt tof h hn
    by_cases h3 : 3 < controls.length
    · have hdne : controls.dropLast ≠ [] := by
        intro h0
        have hl := congrArg List.length h0
        simp only [List.length_dropLast, List.length_nil] at hl
        omega
      obtain ⟨sub, hsub, _, _, _⟩ :=
        ih (n - 1) (by omega) controls.dropLast [controls.getLast h] anc tof hdne
          (by simp [List.length_dropLast, hn])
      rw [controlledXGateInternal]
      simp only [dif_neg h, if_pos h3, hsub, Option.map_some', Option.some_bind]
      refine ⟨_, rfl, rfl, fun hle => absurd h3 (by omega), fun _ => ⟨sub, rfl, ?_⟩⟩
      simp only [List.length_append, List.length_cons, List.length_nil]
      omega
    · rw [controlledXGateInternal]
      simp only [dif_neg h, if_neg h3, Option.some_bind]
      exact ⟨_, rfl, rfl, fun _ => rfl, fun hgt => absurd hgt h3⟩

/-- C2: with the controls written `cs ++ [c]` (so `cs` is
`controls[:-1]` and `c` is `controls[-1]`): for 2 or 3 controls the
returned pairs are exactly a `QuantumControl` with all-1 pattern on
`cs` applying `PauliX` to the ancilla, a Toffoli on
`(c, ancilla, target)`, and that pair again; for more than 3 controls
they are the pairs of `controlledXGateInternal(cs, [c], ancilla,
toffoli)` followed by the Toffoli on `(c, ancilla, target)`, that block
twice. -/
theorem C2_controlledXGateInternal_structure :
    (∀ (cs : List Nat) (c : Nat) (ancilla target : List Nat) (toffoli : Op),
      2 ≤ (cs ++ [c]).length → (cs ++ [c]).length ≤ 3 →
      controlledXGateInternal (cs ++ [c]) ancilla target toffoli = some
        ⟨[], (cs ++ [c]) ++ target ++ ancilla,
         [(Op.QuantumControl (List.replicate cs.length 1) Op.PauliX, cs ++ ancilla),
          (toffoli, [c] ++ ancilla ++ target),
          (Op.QuantumControl (List.replicate cs.length 1) Op.PauliX, cs ++ ancilla),
          (toffoli, [c] ++ ancilla ++ target)]⟩) ∧
    (∀ (cs : List Nat) (c : Nat) (ancilla target : List Nat) (toffoli : Op),
      3 < (cs ++ [c]).length →
      ∃ sub, controlledXGateInternal cs [c] ancilla toffoli = some sub ∧
        controlledXGateInternal (cs ++ [c]) ancilla target toffoli = some
          ⟨[], (cs ++ [c]) ++ target ++ ancilla,
           (sub.gatesAndTargets ++ [(toffoli, [c] ++ ancilla ++ target)]) ++
           (sub.gatesAndTargets ++ [(toffoli, [c] ++ ancilla ++ target)])⟩) := by
  constructor
  · intro cs c anc tgt tof _h2 h3
    have h3' : cs.length + 1 ≤ 3 := by simpa using h3
    have hne : cs ++ [c] ≠ [] := by simp
    rw [controlledXGateInternal, dif_neg hne]
    have hcond : ¬(cs ++ [c]).length > 3 := by
      simp only [List.length_append, List.length_cons, List.length_nil]
      omega
    simp only [if_neg hcond, List.getLast_concat, List.dropLast_concat]
    have hrep : (cs ++ [c]).length - 1 = cs.length := by simp
    rw [hrep]
    rfl
  · intro cs c anc tgt tof hgt
    have hlen : 3 < cs.length + 1 := by simpa using hgt
    have hcs : cs ≠ [] := by
      intro h0
      rw [h0] at hlen
      simp at hlen
    obtain ⟨sub, hsub, _, _, _⟩ :=
      controlledXGateInternal_shape cs.length cs [c] anc tof hcs rfl
    refine ⟨sub, hsub, ?_⟩
    have hne : cs ++ [c] ≠ [] := by simp
    rw [controlledXGateInternal, dif_neg hne]
    have hcond : (cs ++ [c]).length > 3 := by
      simp only [List.length_append, List.length_cons, List.length_nil]
      omega
    simp only [if_pos hcond, List.getLast_concat, List.dropLast_concat, hsub,
      Option.map_some']
    rfl

/-- Witness for C2: the base case at controls `[0, 1]` and the
recursive case at controls `[0, 1, 2, 3]`. -/
theorem C2_controlledXGateInternal_structure_witness :
    controlledXGateInternal ([0] ++ [1]) [3] [2] (Op.Toffoli "") = some
      ⟨[], ([0] ++ [1]) ++ [2] ++ [3],
       [(Op.QuantumControl (List.replicate 1 1) Op.PauliX, [0] ++ [3]),
        (Op.Toffoli "", [1] ++ [3] ++ [2]),
        (Op.QuantumControl (List.replicate 1 1) Op.PauliX, [0] ++ [3]),
        (Op.Toffoli "", [1] ++ [3] ++ [2])]⟩ ∧
    (∃ sub, controlledXGateInternal [0, 1, 2] [3] [5] (Op.Toffoli "") = some sub ∧
      controlledXGateInternal ([0, 1, 2] ++ [3]) [5] [4] (Op.Toffoli "") = some
        ⟨[], ([0, 1, 2] ++ [3]) ++ [4] ++ [5],
         (sub.gatesAndTargets ++ [(Op.Toffoli "", [3] ++ [5] ++ [4])]) ++
         (sub.gatesAndTargets ++ [(Op.Toffoli "", [3] ++ [5] ++ [4])])⟩) :=
  ⟨C2_controlledXGateInternal_structure.1 [0] 1 [3] [2] (Op.Toffoli "")
      (by decide) (by decide),
   C2_controlledXGateInternal_structure.2 [0, 1, 2] 3 [5] [4] (Op.Toffoli "")
      (by decide)⟩

/-- The closed-form gate count of the internal decomposition:
`6 * 2 ^ (k - 3) - 2` pairs for `k ≥ 3` controls. -/
theorem controlledXGateInternal_count :
    ∀ (n : Nat) (controls ancilla target : List Nat) (toffoli : Op)
      (h : controls ≠ []), controls.length = n → 3 ≤ n →
    ∀ s, controlledXGateInternal controls ancilla target toffoli = some s →
      s.gatesAndTargets.length = 6 * 2 ^ (n - 3) - 2 := by
  intro n
  induction n using Nat.strong_induction_on with
  | _ n ih =>
    intro controls anc tgt tof h hn h3 s hs
    obtain ⟨s', hs', _, hbase, hrec⟩ :=
      controlledXGateInternal_shape n controls anc tgt tof h hn
    rw [hs] at hs'
    obtain rfl : s = s' := by
      exact Option.some.inj hs'
    by_cases hgt : 3 < controls.length
    · obtain ⟨sub, hsub, hcount⟩ := hrec hgt
      have hdne : controls.dropLast ≠ [] := by
        intro h0
        have hl := congrArg List.length h0
        simp only [List.length_dropLast, List.length_nil] at hl
        omega
      have hsublen : sub.gatesAndTargets.length = 6 * 2 ^ (n - 1 - 3) - 2 :=
        ih (n - 1) (by omega) controls.dropLast [controls.getLast h] anc tof hdne
          (by simp [List.length_dropLast, hn]) (by omega) sub hsub
      have hpow : 2 ^ (n - 3) = 2 * 2 ^ (n - 1 - 3) := by
        rw [← pow_succ']
        congr 1
        omega
      have hge : 1 ≤ 2 ^ (n - 1 - 3) := Nat.one_le_two_pow
      rw [hcount, hsublen, hpow]
      omega
    · have hb := hbase (by omega)
      have hn3 : n = 3 := by omega
      rw [hb, hn3]
      rfl

/-- C10: for every nonempty control list the recursion terminates with
a sequence (each recursive call shortens the controls by one, the base
case covering lengths up to 3), whose pair count is 4 for 1-3 controls,
satisfies `t(k) = 2 t(k-1) + 2` above 3 controls, and equals
`6 * 2^(k-3) - 2` from 3 controls on. -/
theorem C10_controlledXGateInternal_termination_count
    (controls ancilla target : List Nat) (toffoli : Op) (h : controls ≠ []) :
    ∃ s, controlledXGateInternal controls ancilla target toffoli = some s ∧
      (controls.length ≤ 3 → s.gatesAndTargets.length = 4) ∧
      (3 < controls.length →
        ∃ sub, controlledXGateInternal controls.dropLast [controls.getLast h]
            ancilla toffoli = some sub ∧
          s.gatesAndTargets.length = 2 * sub.gatesAndTargets.length + 2) ∧
      (3 ≤ controls.length →
        s.gatesAndTargets.length = 6 * 2 ^ (controls.length - 3) - 2) := by
  obtain ⟨s, hs, _, hbase, hrec⟩ :=
    controlledXGateInternal_shape controls.length controls ancilla target toffoli h rfl
  exact ⟨s, hs, hbase, hrec,
    fun h3 => controlledXGateInternal_count controls.length controls ancilla target
      toffoli h rfl h3 s hs⟩

/-- Witness for C10 at controls `[0, 1, 2, 3]`: the decomposition
succeeds and holds `6 * 2^1 - 2 = 10` pairs. -/
theorem C10_controlledXGateInternal_termination_count_witness :
    ∃ s, controlledXGateInternal [0, 1, 2, 3] [5] [4] (Op.Toffoli "") = some s ∧
      s.gatesAndTargets.length = 10 := by
  obtain ⟨s, hs, _, _, hcount⟩ :=
    C10_controlledXGateInternal_termination_count [0, 1, 2, 3] [5] [4]
      (Op.Toffoli "") (by decide)
  refine ⟨s, hs, ?_⟩
  have := hcount (by decide)
  simpa using this

/-- A gate is a (possibly controlled, possibly inverse) phase gate. -/
def isPhaseGate : Op → Bool
  | .Phase _ => true
  | .InversePhase _ => true
  | .QuantumControl _ qop => isPhaseGate qop
  | _ => false

/-- C4: `QFT(n, s).getEquivalentSequence()` (total, so it never raises)
is the sequence that, for each `i = 0..n-1`, applies a Hadamard to
qubit `i` and then, for `j = 1..(n-i-1)`, a single-control phase gate
named `s + "Ph" + str(j)` with control qubit `i+j` and target qubit
`i`, followed by a final `QubitReversal(n)` on all qubits; for
`n = 0` and `n = 1` the sequence contains no phase gate. -/
theorem C4_qft_sequence_structure (n : Nat) (s : String) :
    QFT.getEquivalentSequence n s =
      ⟨[], List.range n,
       ((List.range n).flatMap (fun i =>
          (Op.Hadamard, [i]) ::
            (List.range' 1 (n - i - 1)).map (fun j =>
              (Op.QuantumControl [1] (Op.Phase (s ++ "Ph" ++ toString j)),
               [i + j, i])))) ++ [(Op.QubitReversal n, List.range n)]⟩ ∧
    ((QFT.getEquivalentSequence 0 s).gatesAndTargets.filter
        (fun g => isPhaseGate g.1)) = [] ∧
    ((QFT.getEquivalentSequence 1 s).gatesAndTargets.filter
        (fun g => isPhaseGate g.1)) = [] := by
  refine ⟨?_, rfl, rfl⟩
  have hfun : (fun i => (Op.Hadamard, [i]) ::
        (List.range (n - i - 1)).map (fun k =>
          (Op.QuantumControl [1] (Op.Phase (s ++ "Ph" ++ toString (k + 1))),
           [i + (k + 1), i]))) =
      (fun i => (Op.Hadamard, [i]) ::
        (List.range' 1 (n - i - 1)).map (fun j =>
          (Op.QuantumControl [1] (Op.Phase (s ++ "Ph" ++ toString j)),
           [i + j, i]))) := by
    funext i
    congr 1
    rw [List.range'_eq_map_range, List.map_map]
    refine List.map_eq_map_iff.mpr ?_
    intro k _
    simp only [Function.comp]
    rw [Nat.add_comm 1 k]
  simp only [QFT.getEquivalentSequence]
  rw [hfun]

/-- `PermuteQubits.getNumberClassicalBits`. -/
def PermuteQubits.getNumberClassicalBits : Nat := 0

/-- `QubitReversal.getNumberClassicalBits`. -/
def QubitReversal.getNumberClassicalBits : Nat := 0

/-- `QFT.getNumberClassicalBits`. -/
def QFT.getNumberClassicalBits : Nat := 0

/-- `InverseQFT.getNumberClassicalBits`. -/
def InverseQFT.getNumberClassicalBits : Nat := 0

/-- `PCCM.getNumberClassicalBits`. -/
def PCCM.getNumberClassicalBits : Nat := 0

/-- `InversePCCM.getNumberClassicalBits`. -/
def InversePCCM.getNumberClassicalBits : Nat := 0

/-- The register discipline of a `Sequence`: it declares exactly `nq`
qubits and `nb` classical bits, and every qubit index targeted by its
gate/target pairs lies in the declared qubit register. -/
def seqRegistersOK (s : Sequence) (nq nb : Nat) : Prop :=
  s.qubits.length = nq ∧ s.bits.length = nb ∧
  ∀ g ∈ s.gatesAndTargets, ∀ q ∈ g.2, q ∈ s.qubits

/-- Inverting a sequence keeps the registers and target lists, so the
register discipline is preserved. -/
theorem seqRegistersOK_getInverse (s : Sequence) (nq nb : Nat)
    (h : seqRegistersOK s nq nb) : seqRegistersOK s.getInverse nq nb := by
  obtain ⟨h1, h2, h3⟩ := h
  refine ⟨h1, h2, ?_⟩
  intro g hg q hq
  simp only [Sequence.getInverse, List.mem_reverse, List.mem_map] at hg
  obtain ⟨g', hg', rfl⟩ := hg
  exact h3 g' hg' q hq

/-- The QFT lowering respects the register discipline. -/
theorem seqRegistersOK_qft (n : Nat) (s : String) :
    seqRegistersOK (QFT.getEquivalentSequence n s) n 0 := by
  refine ⟨by simp [QFT.getEquivalentSequence], rfl, ?_⟩
  intro g hg q hq
  simp only [QFT.getEquivalentSequence, List.mem_append, List.mem_flatMap,
    List.mem_cons, List.mem_map, List.mem_range, List.not_mem_nil,
    or_false] at hg
  simp only [QFT.getEquivalentSequence, List.mem_range]
  rcases hg with ⟨i, hi, hH | ⟨k, hk, hQC⟩⟩ | hrev
  · subst hH
    simp only [List.mem_cons, List.not_mem_nil, or_false] at hq
    omega
  · subst hQC
    simp only [List.mem_cons, List.not_mem_nil, or_false] at hq
    rcases hq with h | h <;> omega
  · subst hrev
    simpa using hq

/-- C9: for each of `PermuteQubits`, `QubitReversal`, `QFT`,
`InverseQFT`, `PCCM` and `InversePCCM`, the sequence returned by
`getEquivalentSequence` declares exactly `getNumberQubits()` qubits and
`getNumberClassicalBits()` (= 0) classical bits, and every targeted
qubit index lies in the declared register. -/
theorem C9_register_discipline :
    (∀ p : List Nat, seqRegistersOK (PermuteQubits.getEquivalentSequence p)
      (PermuteQubits.getNumberQubits p) PermuteQubits.getNumberClassicalBits) ∧
    (∀ n : Nat, seqRegistersOK (QubitReversal.getEquivalentSequence n)
      (QubitReversal.getNumberQubits n) QubitReversal.getNumberClassicalBits) ∧
    (∀ (n : Nat) (s : String), seqRegistersOK (QFT.getEquivalentSequence n s)
      (QFT.getNumberQubits n) QFT.getNumberClassicalBits) ∧
    (∀ (n : Nat) (s : String), seqRegistersOK (InverseQFT.getEquivalentSequence n s)
      (InverseQFT.getNumberQubits n) InverseQFT.getNumberClassicalBits) ∧
    (∀ name s : String, seqRegistersOK (PCCM.getEquivalentSequence name s)
      PCCM.getNumberQubits PCCM.getNumberClassicalBits) ∧
    (∀ name s : String, seqRegistersOK (InversePCCM.getEquivalentSequence name s)
      InversePCCM.getNumberQubits InversePCCM.getNumberClassicalBits) := by
  have hpccm : ∀ name s : String, seqRegistersOK (PCCM.getEquivalentSequence name s)
      PCCM.getNumberQubits PCCM.getNumberClassicalBits := by
    intro name s
    refine ⟨rfl, rfl, ?_⟩
    intro g hg q hq
    simp only [PCCM.getEquivalentSequence, List.mem_cons, List.not_mem_nil,
      or_false] at hg
    simp only [PCCM.getEquivalentSequence]
    rcases hg with h | h | h | h | h | h <;> subst h <;>
      simp only [List.mem_cons, List.not_mem_nil, or_false] at hq ⊢ <;> tauto
  refine ⟨?_, ?_, ?_, ?_, hpccm, ?_⟩
  · intro p
    refine ⟨by simp [PermuteQubits.getEquivalentSequence,
      PermuteQubits.getNumberQubits], rfl, ?_⟩
    intro g hg q hq
    simp only [PermuteQubits.getEquivalentSequence, List.mem_cons,
      List.not_mem_nil, or_false] at hg
    subst hg
    simpa [PermuteQubits.getEquivalentSequence] using hq
  · intro n
    refine ⟨by simp [QubitReversal.getEquivalentSequence,
      QubitReversal.getNumberQubits], rfl, ?_⟩
    intro g hg q hq
    simp only [QubitReversal.getEquivalentSequence, List.mem_map,
      List.mem_range] at hg
    obtain ⟨i, hi, rfl⟩ := hg
    simp only [List.mem_cons, List.not_mem_nil, or_false] at hq
    simp only [QubitReversal.getEquivalentSequence, List.mem_range]
    rcases hq with h | h <;> omega
  · exact seqRegistersOK_qft
  · intro n s
    exact seqRegistersOK_getInverse _ _ _ (seqRegistersOK_qft n s)
  · intro name s
    exact seqRegistersOK_getInverse _ _ _ (hpccm name s)

/-- Witness for C9: a concrete in-bounds target of the `QFT(2)`
lowering. -/
theorem C9_register_discipline_witness :
    (0 : Nat) ∈ (QFT.getEquivalentSequence 2 "").qubits :=
  (C9_register_discipline.2.2.1 2 "").2.2 (Op.Hadamard, [0])
    (by simp [QFT.getEquivalentSequence, List.range_succ]) 0 (by simp)
